import Mathlib

/-!
Shallow embedding of the `thread_safe::HashMap` container
(files `Bucket.h`, `HashMap.h`, `IteratorHelper.h`, `Reference.h`)
at its quiescent (single-threaded) semantics.

Modelling choices:
* A `Bucket`'s sentinel-led circular doubly-linked list is embedded as a
  `List (K × V)` in list order (sentinel's `m_next` is element 0, new nodes
  are linked at the tail, i.e. appended).  The bucket's separately maintained
  `m_size` counter is kept as its own field, exactly as in the source.
* A node pointer is embedded as a positional `NodeRef`: `null` for `nullptr`,
  `sentinel b` for bucket `b`'s dedicated sentinel node, `node b i` for the
  `i`-th real node of bucket `b`.
* The pluggable functors are instantiated at their documented defaults:
  `KeyEqualT = std::equal_to` becomes decidable equality on `K`, and the hash
  functor is an arbitrary function `K → Nat` stored in the map state.
  `Pair<const KeyT, MappedT>` becomes `K × V`; a default-constructed pair is
  `(default, default)` via `Inhabited`.
* `std::size_t` values are embedded as `Nat`.  The only decrements
  (`--m_size` in `Bucket::erase`) happen when a real node is unlinked, so in
  well-formed states the counter never underflows and wrap-around at
  `2 ^ 64` is unobservable.
-/

set_option linter.unusedSectionVars false

namespace ThreadSafe

/-- A reference to a node of the bucket array: `nullptr`, the dedicated
sentinel node of bucket `b`, or the `i`-th real node of bucket `b`. -/
inductive NodeRef where
  | null : NodeRef
  | sentinel : Nat → NodeRef
  | node : Nat → Nat → NodeRef
deriving DecidableEq, Repr

/-- `IteratorHelper`: a traversal position, the pair of `m_index` and the
node referenced by `m_ref` (`Reference::m_node`). -/
structure Cursor where
  index : Nat
  ref : NodeRef
deriving DecidableEq, Repr

/-- One `Bucket`: the real nodes of its circular list in list order
(`m_end->m_next` first), together with its `m_size` counter. -/
structure Bucket (K V : Type) where
  nodes : List (K × V)
  m_size : Nat
deriving DecidableEq, Repr

variable {K V : Type} [DecidableEq K]

/-- The linear scan of `Bucket::find`: index of the first pair whose key
equals `k`, or `none` for the sentinel (not-found) result. -/
def findIndex (k : K) : List (K × V) → Option Nat
  | [] => none
  | p :: rest => if p.1 = k then some 0 else (findIndex k rest).map Nat.succ

/-- `Bucket::find`: returns the position of the node with the given key,
or `none` standing for the sentinel `m_end`. -/
def Bucket.find (bk : Bucket K V) (k : K) : Option Nat :=
  findIndex k bk.nodes

/-- `Bucket::insert`: if a node with the key exists return it with `false`;
otherwise link a new node at the list tail, increment `m_size`, store the
value, and return the new node with `true`. -/
def Bucket.insert (bk : Bucket K V) (v : K × V) : Bucket K V × Nat × Bool :=
  match bk.find v.1 with
  | some i => (bk, i, false)
  | none => (⟨bk.nodes ++ [v], bk.m_size + 1⟩, bk.nodes.length, true)

/-- `Bucket::insert_or_assign`: if a node with the key exists, store the
whole new pair into it; otherwise link a new node at the tail and store the
pair there. -/
def Bucket.insertOrAssign (bk : Bucket K V) (v : K × V) : Bucket K V × Nat :=
  match bk.find v.1 with
  | some i => (⟨bk.nodes.set i v, bk.m_size⟩, i)
  | none => (⟨bk.nodes ++ [v], bk.m_size + 1⟩, bk.nodes.length)

/-- `Bucket::erase(Node*)`: a no-op on the sentinel (`none`); otherwise
unlink the node and decrement `m_size`. -/
def Bucket.eraseNode (bk : Bucket K V) : Option Nat → Bucket K V
  | none => bk
  | some i => ⟨bk.nodes.eraseIdx i, bk.m_size - 1⟩

/-- `Bucket::erase(key)`: `erase(find(key))`. -/
def Bucket.eraseKey (bk : Bucket K V) (k : K) : Bucket K V :=
  bk.eraseNode (bk.find k)

/-- `Bucket::clear`: erase the first node while the list is nonempty. -/
def Bucket.clear : Bucket K V → Bucket K V
  | ⟨[], s⟩ => ⟨[], s⟩
  | ⟨_ :: rest, s⟩ => Bucket.clear ⟨rest, s - 1⟩

/-- `Bucket::size`: the `m_size` counter (not the list length). -/
def Bucket.size (bk : Bucket K V) : Nat :=
  bk.m_size

/-- `Bucket::empty`: `begin() == end()`, i.e. the list holds no real node. -/
def Bucket.isEmpty (bk : Bucket K V) : Bool :=
  bk.nodes.isEmpty

/-- `Bucket::lookup`-style view used to state claims: the value stored
under `k`, read through `Bucket::find`. -/
def Bucket.lookup (bk : Bucket K V) (k : K) : Option V :=
  (bk.find k).bind (fun i => (bk.nodes[i]?).map Prod.snd)

/-- The `HashMap`: the fixed `BUCKET_COUNT`, the hash functor, and the
bucket array `m_buckets` (a list of exactly `bucket_count` buckets in every
constructed map). -/
structure HashMap (K V : Type) where
  bucket_count : Nat
  hash : K → Nat
  buckets : List (Bucket K V)

/-- Read `m_buckets[b]` (in-range in every use the source makes of it). -/
def HashMap.bucketAt (m : HashMap K V) (b : Nat) : Bucket K V :=
  (m.buckets[b]?).getD ⟨[], 0⟩

/-- Replace bucket `b` of the array. -/
def HashMap.setBucket (m : HashMap K V) (b : Nat) (bk : Bucket K V) : HashMap K V :=
  { m with buckets := m.buckets.set b bk }

/-- The bucket index of a key: `m_hasher(key) % BUCKET_COUNT`. -/
def HashMap.bucketIdx (m : HashMap K V) (k : K) : Nat :=
  m.hash k % m.bucket_count

/-- The `IteratorHelper` constructor at an in-range index: if the node is
the indexed bucket's sentinel (`m_buckets[m_index].end() == node`), the
index is replaced by `BUCKET_COUNT`, making the cursor terminal. -/
def mkIterator (count : Nat) (index : Nat) (r : NodeRef) : Cursor :=
  if r = NodeRef.sentinel index then ⟨count, r⟩ else ⟨index, r⟩

/-- The `IteratorHelper` constructor with its bucket-array access made
explicit: it reads `m_buckets[m_index].end()` before any index check, so an
index outside the array is the out-of-range (`none`) case. -/
def mkIteratorChecked (m : HashMap K V) (index : Nat) (r : NodeRef) : Option Cursor :=
  match m.buckets[index]? with
  | none => none
  | some _ => some (mkIterator m.bucket_count index r)

/-- `IteratorHelper::operator==`: true when both cursors are terminal, or
when they reference the identical node. -/
def cursorEq (count : Nat) (c d : Cursor) : Bool :=
  if c.index = count ∧ d.index = count then true
  else decide (c.ref = d.ref)

/-- `HashMap::end`: `iterator(m_buckets, BUCKET_COUNT, nullptr)`. -/
def HashMap.endIter (m : HashMap K V) : Cursor :=
  mkIterator m.bucket_count m.bucket_count NodeRef.null

/-- `HashMap::end` with the constructor's bucket-array access checked. -/
def HashMap.endIterChecked (m : HashMap K V) : Option Cursor :=
  mkIteratorChecked m m.bucket_count NodeRef.null

/-- The scan loops of `HashMap::begin` and `IteratorHelper::operator++`:
first index `≥ b` whose bucket is nonempty, else `BUCKET_COUNT`. -/
def findNonempty (m : HashMap K V) (b : Nat) : Nat :=
  if _h : b < m.bucket_count then
    if (m.bucketAt b).isEmpty then findNonempty m (b + 1) else b
  else m.bucket_count
termination_by m.bucket_count - b

/-- `HashMap::begin`: scan for the first non-empty bucket and position at
its first node, or the terminal cursor when all buckets are empty. -/
def HashMap.begin (m : HashMap K V) : Cursor :=
  let j := findNonempty m 0
  if j = m.bucket_count then mkIterator m.bucket_count m.bucket_count NodeRef.null
  else mkIterator m.bucket_count j (NodeRef.node j 0)

/-- The `m_node->m_next` step of the circular list: the successor of a real
node is the next real node or the bucket's sentinel; the sentinel's
successor is the first real node (itself when the bucket is empty). -/
def HashMap.refNext (m : HashMap K V) : NodeRef → NodeRef
  | NodeRef.node b i =>
      if i + 1 < (m.bucketAt b).nodes.length then NodeRef.node b (i + 1)
      else NodeRef.sentinel b
  | NodeRef.sentinel b =>
      if (m.bucketAt b).nodes.length = 0 then NodeRef.sentinel b
      else NodeRef.node b 0
  | NodeRef.null => NodeRef.null

/-- `IteratorHelper::operator++`: step to the node's successor; on reaching
the current bucket's sentinel, scan forward for the next non-empty bucket
and position at its first node, or become terminal. -/
def Cursor.inc (m : HashMap K V) (c : Cursor) : Cursor :=
  let r := m.refNext c.ref
  if r = NodeRef.sentinel c.index then
    let j := findNonempty m (c.index + 1)
    if j = m.bucket_count then ⟨j, r⟩ else ⟨j, NodeRef.node j 0⟩
  else ⟨c.index, r⟩

/-- The pair stored in the node a reference designates (`m_value.load()`);
`none` for the sentinel/null references, which hold no real data. -/
def HashMap.refPair (m : HashMap K V) : NodeRef → Option (K × V)
  | NodeRef.node b i => (m.bucketAt b).nodes[i]?
  | _ => none

/-- `Reference::set_pair`: store a whole pair into the referenced node. -/
def HashMap.refSetPair (m : HashMap K V) (r : NodeRef) (p : K × V) : HashMap K V :=
  match r with
  | NodeRef.node b i =>
      m.setBucket b ⟨(m.bucketAt b).nodes.set i p, (m.bucketAt b).m_size⟩
  | _ => m

/-- `Reference::set`: load the current key, then store the whole pair
`(key, value)`. -/
def HashMap.refSet [Inhabited K] [Inhabited V] (m : HashMap K V) (r : NodeRef) (v : V) : HashMap K V :=
  m.refSetPair r (((m.refPair r).getD default).1, v)

/-- `Reference::get`: the mapped field of the loaded pair. -/
def HashMap.refGet [Inhabited K] [Inhabited V] (m : HashMap K V) (r : NodeRef) : V :=
  ((m.refPair r).getD default).2

/-- `HashMap::insert(value)`: route to the key's bucket, delegate to
`Bucket::insert`, and wrap the returned node in a cursor. -/
def HashMap.insert (m : HashMap K V) (v : K × V) : HashMap K V × Cursor × Bool :=
  let bi := m.bucketIdx v.1
  let r := (m.bucketAt bi).insert v
  (m.setBucket bi r.1, mkIterator m.bucket_count bi (NodeRef.node bi r.2.1), r.2.2)

/-- `HashMap::insert_or_assign(value)`: route to the key's bucket, delegate
to `Bucket::insert_or_assign`, and wrap the returned node in a cursor. -/
def HashMap.insertOrAssign (m : HashMap K V) (v : K × V) : HashMap K V × Cursor :=
  let bi := m.bucketIdx v.1
  let r := (m.bucketAt bi).insertOrAssign v
  (m.setBucket bi r.1, mkIterator m.bucket_count bi (NodeRef.node bi r.2))

/-- `HashMap::erase(key)`: delegate to the owning bucket's `erase(key)`. -/
def HashMap.eraseKey (m : HashMap K V) (k : K) : HashMap K V :=
  let bi := m.bucketIdx k
  m.setBucket bi ((m.bucketAt bi).eraseKey k)

/-- `HashMap::find`: route to the key's bucket and wrap `Bucket::find`'s
node (the bucket's sentinel on a miss) in a cursor. -/
def HashMap.find (m : HashMap K V) (k : K) : Cursor :=
  let bi := m.bucketIdx k
  match (m.bucketAt bi).find k with
  | some i => mkIterator m.bucket_count bi (NodeRef.node bi i)
  | none => mkIterator m.bucket_count bi (NodeRef.sentinel bi)

/-- The value currently stored for `k`, read through the owning bucket. -/
def HashMap.lookup (m : HashMap K V) (k : K) : Option V :=
  (m.bucketAt (m.bucketIdx k)).lookup k

/-- `HashMap::erase(iterator)`: precompute the successor cursor, read the
current node's key, erase that key, and return the precomputed successor. -/
def HashMap.eraseIter [Inhabited K] [Inhabited V] (m : HashMap K V) (c : Cursor) : HashMap K V × Cursor :=
  let next := Cursor.inc m c
  let key := ((m.refPair c.ref).getD default).1
  (m.eraseKey key, next)

/-- `HashMap::operator[]`: look the key up; if the cursor equals `end()`,
insert a pair with a default-constructed mapped value; return a reference
to the (possibly new) node. -/
def HashMap.getOrInsert [Inhabited V] (m : HashMap K V) (k : K) : HashMap K V × NodeRef :=
  let it := m.find k
  if cursorEq m.bucket_count it m.endIter then
    let r := m.insert (k, (default : V))
    (r.1, r.2.1.ref)
  else (m, it.ref)

/-- `HashMap::clear`: clear every bucket of the array in sequence. -/
def HashMap.clear (m : HashMap K V) : HashMap K V :=
  { m with buckets := m.buckets.map Bucket.clear }

/-- `HashMap::size`: the sum of every bucket's `m_size` counter. -/
def HashMap.size (m : HashMap K V) : Nat :=
  (m.buckets.map Bucket.size).sum

/-- `HashMap::empty`: true when every bucket reports `begin() == end()`. -/
def HashMap.empty (m : HashMap K V) : Bool :=
  m.buckets.all Bucket.isEmpty

/-- A freshly default-constructed map: `bucket_count` empty buckets. -/
def mkEmpty (count : Nat) (hash : K → Nat) : HashMap K V :=
  ⟨count, hash, List.replicate count ⟨[], 0⟩⟩

/-- The single-threaded operations a client can apply to a map. -/
inductive Op (K V : Type) where
  | insert (k : K) (v : V)
  | insertOrAssign (k : K) (v : V)
  | erase (k : K)
  | getOrInsert (k : K)
  | clear

/-- Apply one operation, discarding its returned cursor/flag. -/
def HashMap.applyOp [Inhabited V] (m : HashMap K V) : Op K V → HashMap K V
  | Op.insert k v => (m.insert (k, v)).1
  | Op.insertOrAssign k v => (m.insertOrAssign (k, v)).1
  | Op.erase k => m.eraseKey k
  | Op.getOrInsert k => (m.getOrInsert k).1
  | Op.clear => m.clear

/-- Run a sequence of operations from a freshly constructed map. -/
def runOps [Inhabited V] (count : Nat) (hash : K → Nat) (ops : List (Op K V)) : HashMap K V :=
  ops.foldl HashMap.applyOp (mkEmpty count hash)

/-- Well-formedness of one bucket in position `b`: the `m_size` counter
matches the node count, keys are pairwise distinct, and every key hashes to
this bucket. -/
def BucketWF (hash : K → Nat) (count b : Nat) (bk : Bucket K V) : Prop :=
  bk.m_size = bk.nodes.length ∧
  (bk.nodes.map Prod.fst).Nodup ∧
  ∀ p ∈ bk.nodes, hash p.1 % count = b

/-- Well-formedness of a map state: a positive fixed bucket count, an array
of exactly that many buckets, each bucket well-formed for its index. -/
def HashMap.WF (m : HashMap K V) : Prop :=
  0 < m.bucket_count ∧ m.buckets.length = m.bucket_count ∧
  ∀ b < m.buckets.length, BucketWF m.hash m.bucket_count b (m.bucketAt b)

instance (hash : K → Nat) (count b : Nat) (bk : Bucket K V) :
    Decidable (BucketWF hash count b bk) := by
  unfold BucketWF; infer_instance

instance (m : HashMap K V) : Decidable m.WF := by
  unfold HashMap.WF; infer_instance

/-- The logical contents of the tail of the bucket array starting at
index `b`: the node pairs of buckets `b, b+1, …` in order. -/
def flattenFrom (m : HashMap K V) (b : Nat) : List (K × V) :=
  if _h : b < m.bucket_count then (m.bucketAt b).nodes ++ flattenFrom m (b + 1)
  else []
termination_by m.bucket_count - b

/-- The logical contents of the map: ascending bucket index, insertion
order within each bucket. -/
def HashMap.contents (m : HashMap K V) : List (K × V) :=
  flattenFrom m 0

/-- Walk `fuel` positions forward from a cursor, collecting the pair stored
at each non-terminal position. -/
def traverseFrom (m : HashMap K V) : Nat → Cursor → List (K × V)
  | 0, _ => []
  | Nat.succ fuel, c =>
      if c.index = m.bucket_count then []
      else (m.refPair c.ref).toList ++ traverseFrom m fuel (Cursor.inc m c)

/-- A full traversal: repeated `operator++` from `begin()` until the
terminal cursor, with fuel covering every stored node. -/
def HashMap.traverse (m : HashMap K V) : List (K × V) :=
  traverseFrom m m.contents.length m.begin

/-! ### Concrete instances used by the witness theorems -/

/-- The identity hash functor on `Nat` keys. -/
def hashId : Nat → Nat := fun k => k

/-- A two-bucket map holding the single entry `1 ↦ 10`. -/
def mapA : HashMap Nat Nat := ((mkEmpty 2 hashId).insert (1, 10)).1

/-- A freshly constructed two-bucket map. -/
def mapE : HashMap Nat Nat := mkEmpty 2 hashId

/-- A two-bucket map holding `1 ↦ 10`, `2 ↦ 20` and `4 ↦ 40`. -/
def mapB : HashMap Nat Nat :=
  (((mapA.insert (2, 20)).1).insert (4, 40)).1

/-- A concrete operation sequence exercising every constructor of `Op`. -/
def opsW : List (Op Nat Nat) :=
  [Op.insert 1 10, Op.insert 2 20, Op.getOrInsert 5, Op.insertOrAssign 1 99,
   Op.erase 2, Op.insert 4 40]

/-! ### Helper lemmas about `findIndex` and bucket lookup -/

theorem findIndex_eq_none_iff {k : K} {l : List (K × V)} :
    findIndex k l = none ↔ ∀ p ∈ l, p.1 ≠ k := by
  induction l with
  | nil => simp [findIndex]
  | cons p rest ih =>
    by_cases h : p.1 = k <;> simp [findIndex, h, ih]

theorem findIndex_eq_some {k : K} {l : List (K × V)} {i : Nat}
    (h : findIndex k l = some i) : ∃ v, l[i]? = some (k, v) := by
  induction l generalizing i with
  | nil => simp [findIndex] at h
  | cons p rest ih =>
    by_cases hp : p.1 = k
    · simp [findIndex, hp] at h
      subst h
      exact ⟨p.2, by simp [← hp]⟩
    · simp [findIndex, hp] at h
      obtain ⟨j, hj, rfl⟩ := h
      obtain ⟨v, hv⟩ := ih hj
      exact ⟨v, by simpa using hv⟩

theorem keys_nodup_unique {l : List (K × V)} {k : K} {v v' : V}
    (hnd : (l.map Prod.fst).Nodup) (h : (k, v) ∈ l) (h' : (k, v') ∈ l) : v = v' := by
  induction l with
  | nil => simp at h
  | cons p rest ih =>
    rw [List.map_cons, List.nodup_cons] at hnd
    have hk_rest : ∀ w : V, (k, w) ∈ rest → k ∈ rest.map Prod.fst :=
      fun w hw => List.mem_map.2 ⟨(k, w), hw, rfl⟩
    rcases List.mem_cons.1 h with h1 | h1 <;> rcases List.mem_cons.1 h' with h2 | h2
    · exact congrArg Prod.snd (h1.trans h2.symm)
    · refine absurd (hk_rest v' h2) ?_
      rw [← h1] at hnd
      exact hnd.1
    · refine absurd (hk_rest v h1) ?_
      rw [← h2] at hnd
      exact hnd.1
    · exact ih hnd.2 h1 h2

theorem findIndex_of_mem {l : List (K × V)} {k : K} {v : V} (h : (k, v) ∈ l) :
    ∃ i, findIndex k l = some i := by
  cases hf : findIndex k l with
  | some i => exact ⟨i, rfl⟩
  | none => exact absurd rfl (findIndex_eq_none_iff.1 hf (k, v) h)

theorem Bucket.lookup_eq_none_iff {bk : Bucket K V} {k : K} :
    bk.lookup k = none ↔ ∀ p ∈ bk.nodes, p.1 ≠ k := by
  rw [← @findIndex_eq_none_iff K V _ k bk.nodes]
  constructor
  · intro h
    cases hf : findIndex k bk.nodes with
    | none => rfl
    | some i =>
      obtain ⟨v, hv⟩ := findIndex_eq_some hf
      rw [Bucket.lookup, Bucket.find, hf] at h
      simp [hv] at h
  · intro h
    rw [Bucket.lookup, Bucket.find, h]
    rfl

theorem Bucket.lookup_eq_some_iff {bk : Bucket K V} {k : K} {v : V} :
    bk.lookup k = some v ↔ ∃ i, bk.find k = some i ∧ bk.nodes[i]? = some (k, v) := by
  constructor
  · intro h
    rw [Bucket.lookup] at h
    cases hf : bk.find k with
    | none => rw [hf] at h; simp at h
    | some i =>
      rw [hf] at h
      obtain ⟨v', hv'⟩ := findIndex_eq_some (hf : findIndex k bk.nodes = some i)
      refine ⟨i, rfl, ?_⟩
      simp only [Option.some_bind, hv', Option.map_some'] at h
      cases h
      exact hv'
  · rintro ⟨i, hf, hget⟩
    rw [Bucket.lookup, hf]
    simp [hget]

theorem Bucket.lookup_of_mem {bk : Bucket K V} {k : K} {v : V}
    (hnd : (bk.nodes.map Prod.fst).Nodup) (h : (k, v) ∈ bk.nodes) :
    bk.lookup k = some v := by
  obtain ⟨i, hi⟩ := findIndex_of_mem h
  obtain ⟨v', hv'⟩ := findIndex_eq_some hi
  have hmem : (k, v') ∈ bk.nodes := List.getElem?_mem hv'
  have : v' = v := keys_nodup_unique hnd hmem h
  subst this
  exact Bucket.lookup_eq_some_iff.2 ⟨i, hi, hv'⟩

/-! ### Helper lemmas about lists -/

theorem sum_map_set {α : Type} (f : α → Nat) (l : List α) (i : Nat) (a : α)
    (h : i < l.length) :
    ((l.set i a).map f).sum + f (l.get ⟨i, h⟩) = (l.map f).sum + f a := by
  induction l generalizing i with
  | nil => simp at h
  | cons x rest ih =>
    cases i with
    | zero => simp [Nat.add_comm, Nat.add_left_comm, Nat.add_assoc]
    | succ j =>
      simp only [List.set_cons_succ, List.map_cons, List.sum_cons, List.get_cons_succ]
      have := ih j (by simpa using Nat.lt_of_succ_lt_succ h)
      omega

theorem set_getD_self {α : Type} (l : List α) (i : Nat) (d : α) (h : i < l.length) :
    l.set i ((l[i]?).getD d) = l := by
  induction l generalizing i with
  | nil => simp at h
  | cons x rest ih =>
    cases i with
    | zero => simp
    | succ j => simpa using ih j (by simpa using Nat.lt_of_succ_lt_succ h)

/-! ### Helper lemmas about `bucketAt` / `setBucket` -/

theorem HashMap.bucketAt_setBucket_self (m : HashMap K V) (b : Nat) (bk : Bucket K V)
    (h : b < m.buckets.length) : (m.setBucket b bk).bucketAt b = bk := by
  simp [HashMap.setBucket, HashMap.bucketAt,
    List.getElem?_set_eq_of_lt bk (by simpa using h)]

theorem HashMap.bucketAt_setBucket_ne (m : HashMap K V) (b b' : Nat) (bk : Bucket K V)
    (h : b ≠ b') : (m.setBucket b bk).bucketAt b' = m.bucketAt b' := by
  simp [HashMap.setBucket, HashMap.bucketAt, List.getElem?_set_ne h]

theorem HashMap.setBucket_bucketAt_self (m : HashMap K V) (b : Nat)
    (h : b < m.buckets.length) : m.setBucket b (m.bucketAt b) = m := by
  show { m with buckets := _ } = m
  rw [HashMap.bucketAt, set_getD_self m.buckets b _ h]

theorem HashMap.size_setBucket (m : HashMap K V) (b : Nat) (bk : Bucket K V)
    (h : b < m.buckets.length) :
    (m.setBucket b bk).size + (m.bucketAt b).size = m.size + bk.size := by
  have := sum_map_set Bucket.size m.buckets b bk h
  have hb : m.bucketAt b = m.buckets.get ⟨b, h⟩ := by
    simp [HashMap.bucketAt, List.getElem?_eq_getElem h]
  rw [HashMap.size, HashMap.size, HashMap.setBucket, hb]
  exact this

theorem HashMap.bucket_count_setBucket (m : HashMap K V) (b : Nat) (bk : Bucket K V) :
    (m.setBucket b bk).bucket_count = m.bucket_count := rfl

theorem HashMap.length_setBucket (m : HashMap K V) (b : Nat) (bk : Bucket K V) :
    (m.setBucket b bk).buckets.length = m.buckets.length := by
  simp [HashMap.setBucket]

theorem HashMap.hash_setBucket (m : HashMap K V) (b : Nat) (bk : Bucket K V) :
    (m.setBucket b bk).hash = m.hash := rfl

theorem HashMap.bucketIdx_lt (m : HashMap K V) (k : K) (h : 0 < m.bucket_count) :
    m.bucketIdx k < m.bucket_count :=
  Nat.mod_lt _ h

/-! ### Well-formedness: accessors and preservation -/

theorem HashMap.WF.count_pos {m : HashMap K V} (hwf : m.WF) : 0 < m.bucket_count :=
  hwf.1

theorem HashMap.WF.len_eq {m : HashMap K V} (hwf : m.WF) :
    m.buckets.length = m.bucket_count :=
  hwf.2.1

theorem HashMap.WF.bucketWF {m : HashMap K V} (hwf : m.WF) (b : Nat)
    (hb : b < m.bucket_count) : BucketWF m.hash m.bucket_count b (m.bucketAt b) :=
  hwf.2.2 b (by rw [hwf.len_eq]; exact hb)

theorem HashMap.WF.idx_lt {m : HashMap K V} (hwf : m.WF) (k : K) :
    m.bucketIdx k < m.buckets.length := by
  rw [hwf.len_eq]; exact m.bucketIdx_lt k hwf.count_pos

theorem WF_mkEmpty (count : Nat) (hash : K → Nat) (h : 0 < count) :
    (mkEmpty count hash : HashMap K V).WF := by
  refine ⟨h, by simp [mkEmpty], ?_⟩
  intro b hb
  simp only [mkEmpty] at hb ⊢
  have : (List.replicate count (⟨[], 0⟩ : Bucket K V))[b]? = some ⟨[], 0⟩ := by
    rw [List.getElem?_replicate]
    simp only [List.length_replicate] at hb
    simp [hb]
  rw [HashMap.bucketAt]
  simp only [this, Option.getD_some]
  exact ⟨rfl, List.nodup_nil, by simp⟩

theorem mkIterator_node (count index b i : Nat) :
    mkIterator count index (NodeRef.node b i) = ⟨index, NodeRef.node b i⟩ := by
  simp [mkIterator]

theorem mkIterator_sentinel_self (count index : Nat) :
    mkIterator count index (NodeRef.sentinel index) = ⟨count, NodeRef.sentinel index⟩ := by
  simp [mkIterator]

theorem mkIterator_null (count index : Nat) :
    mkIterator count index NodeRef.null = ⟨index, NodeRef.null⟩ := by
  simp [mkIterator]

/-! ### `insert`: unfolding lemmas and preservation -/

theorem Bucket.find_eq_none_iff {bk : Bucket K V} {k : K} :
    bk.find k = none ↔ ∀ p ∈ bk.nodes, p.1 ≠ k :=
  findIndex_eq_none_iff

theorem HashMap.insert_present (m : HashMap K V) (k : K) (v v1 : V) (hwf : m.WF)
    (h : m.lookup k = some v1) :
    ∃ i, (m.bucketAt (m.bucketIdx k)).find k = some i ∧
      (m.bucketAt (m.bucketIdx k)).nodes[i]? = some (k, v1) ∧
      m.insert (k, v) = (m, ⟨m.bucketIdx k, NodeRef.node (m.bucketIdx k) i⟩, false) := by
  obtain ⟨i, hf, hget⟩ := Bucket.lookup_eq_some_iff.1 h
  refine ⟨i, hf, hget, ?_⟩
  rw [HashMap.insert]
  simp only [Bucket.insert, hf, mkIterator_node]
  rw [HashMap.setBucket_bucketAt_self m _ (hwf.idx_lt k)]

theorem HashMap.insert_absent (m : HashMap K V) (k : K) (v : V)
    (h : m.lookup k = none) :
    m.insert (k, v) =
      (m.setBucket (m.bucketIdx k)
         ⟨(m.bucketAt (m.bucketIdx k)).nodes ++ [(k, v)],
          (m.bucketAt (m.bucketIdx k)).m_size + 1⟩,
       ⟨m.bucketIdx k, NodeRef.node (m.bucketIdx k)
          (m.bucketAt (m.bucketIdx k)).nodes.length⟩,
       true) := by
  have hf : (m.bucketAt (m.bucketIdx k)).find k = none :=
    Bucket.find_eq_none_iff.2 (Bucket.lookup_eq_none_iff.1 h)
  rw [HashMap.insert]
  simp only [Bucket.insert, hf, mkIterator_node]

theorem HashMap.WF.insert {m : HashMap K V} (hwf : m.WF) (k : K) (v : V) :
    (m.insert (k, v)).1.WF := by
  cases h : m.lookup k with
  | some v1 =>
    obtain ⟨i, _, _, heq⟩ := m.insert_present k v v1 hwf h
    rw [heq]
    exact hwf
  | none =>
    rw [m.insert_absent k v h]
    set bi := m.bucketIdx k with hbi
    have hbl := hwf.idx_lt k
    have hold := hwf.bucketWF bi (m.bucketIdx_lt k hwf.count_pos)
    have hnotin : ∀ p ∈ (m.bucketAt bi).nodes, p.1 ≠ k :=
      Bucket.lookup_eq_none_iff.1 h
    refine ⟨hwf.count_pos, by rw [HashMap.length_setBucket]; exact hwf.len_eq, ?_⟩
    intro b hb
    rw [HashMap.length_setBucket] at hb
    by_cases hcase : bi = b
    · subst hcase
      rw [HashMap.bucketAt_setBucket_self _ _ _ hbl]
      refine ⟨by simp [hold.1], ?_, ?_⟩
      · rw [List.map_append]
        refine List.Nodup.append hold.2.1 (by simp) ?_
        intro a ha hb'
        simp only [List.map_cons, List.map_nil, List.mem_singleton] at hb'
        subst hb'
        obtain ⟨p, hp, hpk⟩ := List.mem_map.1 ha
        exact hnotin p hp hpk
      · intro p hp
        rcases List.mem_append.1 hp with hp | hp
        · exact hold.2.2 p hp
        · simp only [List.mem_singleton] at hp
          subst hp
          rfl
    · rw [HashMap.bucketAt_setBucket_ne _ _ _ _ hcase]
      exact hwf.2.2 b hb

/-- Claim C1: for every well-formed map state and key `k`, if `k` is absent
then `insert(k, v)` returns its cursor at a node holding `(k, v)` with the
flag `true` and `size()` grows by exactly 1; if `k` is present with `v1`
then it returns a cursor at the existing node still holding `v1` with the
flag `false`, and both `size()` and the stored value for `k` are
unchanged. -/
theorem claim_C1_insert (m : HashMap K V) (k : K) (v : V) (hwf : m.WF) :
    (m.lookup k = none →
      (m.insert (k, v)).2.2 = true ∧
      (m.insert (k, v)).1.refPair ((m.insert (k, v)).2.1).ref = some (k, v) ∧
      (m.insert (k, v)).1.size = m.size + 1) ∧
    (∀ v1, m.lookup k = some v1 →
      (m.insert (k, v)).2.2 = false ∧
      (m.insert (k, v)).1.refPair ((m.insert (k, v)).2.1).ref = some (k, v1) ∧
      (m.insert (k, v)).1.size = m.size ∧
      (m.insert (k, v)).1.lookup k = some v1) := by
  constructor
  · intro h
    rw [m.insert_absent k v h]
    set bi := m.bucketIdx k with hbi
    have hbl := hwf.idx_lt k
    refine ⟨rfl, ?_, ?_⟩
    · show (HashMap.refPair _ (NodeRef.node bi _)) = _
      rw [HashMap.refPair, HashMap.bucketAt_setBucket_self _ _ _ hbl]
      simp
    · show (m.setBucket bi
        ⟨(m.bucketAt bi).nodes ++ [(k, v)], (m.bucketAt bi).m_size + 1⟩).size = m.size + 1
      have hset := m.size_setBucket bi
        ⟨(m.bucketAt bi).nodes ++ [(k, v)], (m.bucketAt bi).m_size + 1⟩ hbl
      simp only [Bucket.size] at hset
      omega
  · intro v1 h
    obtain ⟨i, hf, hget, heq⟩ := m.insert_present k v v1 hwf h
    rw [heq]
    exact ⟨rfl, by rw [HashMap.refPair]; exact hget, rfl, h⟩

/-- Witness for C1: on the concrete map `{1 ↦ 10}` with two buckets,
inserting absent key 2 succeeds and grows the size; re-inserting key 1
fails and leaves the stored value. -/
theorem claim_C1_insert_witness :
    ((mapA.insert (2, 20)).2.2 = true ∧ (mapA.insert (2, 20)).1.size = mapA.size + 1) ∧
    ((mapA.insert (1, 99)).2.2 = false ∧ (mapA.insert (1, 99)).1.lookup 1 = some 10) := by
  refine ⟨?_, ?_⟩
  · have h := (claim_C1_insert mapA 2 20 (by decide)).1 (by decide)
    exact ⟨h.1, h.2.2⟩
  · have h := (claim_C1_insert mapA 1 99 (by decide)).2 10 (by decide)
    exact ⟨h.1, h.2.2.2⟩

/-! ### `erase(key)`: unfolding lemmas and preservation -/

theorem keys_not_mem_eraseIdx {l : List (K × V)} {i : Nat} {k : K} {v : V}
    (hnd : (l.map Prod.fst).Nodup) (hi : l[i]? = some (k, v)) :
    ∀ p ∈ l.eraseIdx i, p.1 ≠ k := by
  induction l generalizing i with
  | nil => simp
  | cons x rest ih =>
    rw [List.map_cons, List.nodup_cons] at hnd
    cases i with
    | zero =>
      simp only [List.getElem?_cons_zero, Option.some_inj] at hi
      subst hi
      intro p hp hpk
      exact hnd.1 (hpk ▸ List.mem_map.2 ⟨p, by simpa using hp, rfl⟩)
    | succ j =>
      have hj : rest[j]? = some (k, v) := by simpa using hi
      intro p hp hpk
      rcases List.mem_cons.1 (by simpa [List.eraseIdx_cons_succ] using hp) with rfl | hp'
      · exact hnd.1 (hpk ▸ List.mem_map.2 ⟨(k, v), List.getElem?_mem hj, rfl⟩)
      · exact ih hnd.2 hj p hp' hpk

theorem mem_eraseIdx_of_ne {α : Type} {l : List α} {i : Nat} {a b : α}
    (ha : a ∈ l) (hi : l[i]? = some b) (hne : a ≠ b) : a ∈ l.eraseIdx i := by
  induction l generalizing i with
  | nil => simp at ha
  | cons x rest ih =>
    cases i with
    | zero =>
      simp only [List.getElem?_cons_zero, Option.some_inj] at hi
      subst hi
      rcases List.mem_cons.1 ha with rfl | ha'
      · exact absurd rfl hne
      · simpa using ha'
    | succ j =>
      have hj : rest[j]? = some b := by simpa using hi
      rw [List.eraseIdx_cons_succ]
      rcases List.mem_cons.1 ha with rfl | ha'
      · exact List.mem_cons_self ..
      · exact List.mem_cons_of_mem _ (ih ha' hj)

theorem HashMap.bucketIdx_setBucket (m : HashMap K V) (b : Nat) (bk : Bucket K V) (k : K) :
    (m.setBucket b bk).bucketIdx k = m.bucketIdx k := rfl

theorem HashMap.eraseKey_absent (m : HashMap K V) (k : K) (hwf : m.WF)
    (h : m.lookup k = none) : m.eraseKey k = m := by
  have hf : (m.bucketAt (m.bucketIdx k)).find k = none :=
    Bucket.find_eq_none_iff.2 (Bucket.lookup_eq_none_iff.1 h)
  rw [HashMap.eraseKey, Bucket.eraseKey, hf]
  exact m.setBucket_bucketAt_self _ (hwf.idx_lt k)

theorem HashMap.eraseKey_present (m : HashMap K V) (k : K) (v : V)
    (h : m.lookup k = some v) :
    ∃ i, (m.bucketAt (m.bucketIdx k)).find k = some i ∧
      (m.bucketAt (m.bucketIdx k)).nodes[i]? = some (k, v) ∧
      m.eraseKey k = m.setBucket (m.bucketIdx k)
        ⟨(m.bucketAt (m.bucketIdx k)).nodes.eraseIdx i,
         (m.bucketAt (m.bucketIdx k)).m_size - 1⟩ := by
  obtain ⟨i, hf, hget⟩ := Bucket.lookup_eq_some_iff.1 h
  exact ⟨i, hf, hget, by rw [HashMap.eraseKey, Bucket.eraseKey, hf, Bucket.eraseNode]⟩

theorem HashMap.WF.eraseKey {m : HashMap K V} (hwf : m.WF) (k : K) :
    (m.eraseKey k).WF := by
  cases h : m.lookup k with
  | none => rw [m.eraseKey_absent k hwf h]; exact hwf
  | some v =>
    obtain ⟨i, hf, hget, heq⟩ := m.eraseKey_present k v h
    rw [heq]
    set bi := m.bucketIdx k with hbi
    have hbl := hwf.idx_lt k
    have hold := hwf.bucketWF bi (m.bucketIdx_lt k hwf.count_pos)
    have hilt : i < (m.bucketAt bi).nodes.length := by
      by_contra hcon
      rw [List.getElem?_eq_none (Nat.le_of_not_lt hcon)] at hget
      exact Option.noConfusion hget
    refine ⟨hwf.count_pos, by rw [HashMap.length_setBucket]; exact hwf.len_eq, ?_⟩
    intro b hb
    rw [HashMap.length_setBucket] at hb
    by_cases hcase : bi = b
    · subst hcase
      rw [HashMap.bucketAt_setBucket_self _ _ _ hbl]
      have hsub : ((m.bucketAt bi).nodes.eraseIdx i).Sublist (m.bucketAt bi).nodes :=
        List.eraseIdx_sublist ..
      refine ⟨?_, ?_, ?_⟩
      · show (m.bucketAt bi).m_size - 1 = _
        rw [List.length_eraseIdx, if_pos hilt, hold.1]
      · exact List.Nodup.sublist (List.Sublist.map Prod.fst hsub) hold.2.1
      · intro p hp
        exact hold.2.2 p (hsub.mem hp)
    · rw [HashMap.bucketAt_setBucket_ne _ _ _ _ hcase]
      exact hwf.2.2 b hb

theorem HashMap.find_miss (m : HashMap K V) (k : K) (h : m.lookup k = none) :
    cursorEq m.bucket_count (m.find k) m.endIter = true := by
  have hf : (m.bucketAt (m.bucketIdx k)).find k = none :=
    Bucket.find_eq_none_iff.2 (Bucket.lookup_eq_none_iff.1 h)
  rw [HashMap.find]
  simp only [hf, mkIterator_sentinel_self]
  rw [HashMap.endIter, mkIterator_null, cursorEq]
  simp

/-- Claim C2: `erase(k)` on a well-formed map is a silent no-op when `k` is
absent; when `k` is present it removes exactly that entry (all other keys
unchanged), decreases `size()` by 1, and makes a subsequent
`find(k)` compare equal to `end()`. -/
theorem claim_C2_erase (m : HashMap K V) (k : K) (hwf : m.WF) :
    (m.lookup k = none → m.eraseKey k = m) ∧
    (∀ v, m.lookup k = some v →
      (m.eraseKey k).size + 1 = m.size ∧
      (m.eraseKey k).lookup k = none ∧
      (∀ k', k' ≠ k → (m.eraseKey k).lookup k' = m.lookup k') ∧
      cursorEq (m.eraseKey k).bucket_count ((m.eraseKey k).find k)
        (m.eraseKey k).endIter = true) := by
  constructor
  · exact fun h => m.eraseKey_absent k hwf h
  · intro v h
    obtain ⟨i, hf, hget, heq⟩ := m.eraseKey_present k v h
    set bi := m.bucketIdx k with hbi
    have hbl := hwf.idx_lt k
    have hold := hwf.bucketWF bi (m.bucketIdx_lt k hwf.count_pos)
    have hilt : i < (m.bucketAt bi).nodes.length := by
      by_contra hcon
      rw [List.getElem?_eq_none (Nat.le_of_not_lt hcon)] at hget
      exact Option.noConfusion hget
    have hsize : (m.eraseKey k).size + 1 = m.size := by
      rw [heq]
      have hset := m.size_setBucket bi
        ⟨(m.bucketAt bi).nodes.eraseIdx i, (m.bucketAt bi).m_size - 1⟩ hbl
      simp only [Bucket.size] at hset
      have : 0 < (m.bucketAt bi).m_size := by rw [hold.1]; exact Nat.lt_of_le_of_lt (Nat.zero_le i) hilt
      omega
    have hlook : (m.eraseKey k).lookup k = none := by
      rw [heq, HashMap.lookup, HashMap.bucketIdx_setBucket, ← hbi,
        HashMap.bucketAt_setBucket_self _ _ _ hbl]
      exact Bucket.lookup_eq_none_iff.2 (keys_not_mem_eraseIdx hold.2.1 hget)
    refine ⟨hsize, hlook, ?_, ?_⟩
    · intro k' hk'
      rw [heq, HashMap.lookup, HashMap.bucketIdx_setBucket, HashMap.lookup]
      by_cases hbik' : m.bucketIdx k' = bi
      · rw [hbik', HashMap.bucketAt_setBucket_self _ _ _ hbl]
        have hnd' : (((m.bucketAt bi).nodes.eraseIdx i).map Prod.fst).Nodup :=
          List.Nodup.sublist (List.Sublist.map Prod.fst (List.eraseIdx_sublist ..)) hold.2.1
        cases hlk : (m.bucketAt bi).lookup k' with
        | none =>
          refine Bucket.lookup_eq_none_iff.2 ?_
          intro p hp
          exact Bucket.lookup_eq_none_iff.1 hlk p ((List.eraseIdx_sublist ..).mem hp)
        | some v' =>
          obtain ⟨j, hj, hjget⟩ := Bucket.lookup_eq_some_iff.1 hlk
          have hmem : (k', v') ∈ (m.bucketAt bi).nodes := List.getElem?_mem hjget
          have hmem' : (k', v') ∈ (m.bucketAt bi).nodes.eraseIdx i :=
            mem_eraseIdx_of_ne hmem hget (by intro hcon; exact hk' (congrArg Prod.fst hcon))
          exact @Bucket.lookup_of_mem K V _
            ⟨(m.bucketAt bi).nodes.eraseIdx i, (m.bucketAt bi).m_size - 1⟩ k' v' hnd' hmem'
      · rw [HashMap.bucketAt_setBucket_ne _ _ _ _ (fun hcon => hbik' hcon.symm)]
    · exact (m.eraseKey k).find_miss k hlook

/-- Witness for C2: on the concrete map `{1 ↦ 10, 2 ↦ 20, 4 ↦ 40}`, erasing
present key 4 shrinks the size, removes only that key, and `find(4)`
becomes `end()`; erasing absent key 9 is a no-op. -/
theorem claim_C2_erase_witness :
    (mapB.eraseKey 9 = mapB) ∧
    ((mapB.eraseKey 4).size + 1 = mapB.size ∧
     (mapB.eraseKey 4).lookup 4 = none ∧
     (mapB.eraseKey 4).lookup 2 = mapB.lookup 2) := by
  refine ⟨(claim_C2_erase mapB 9 (by decide)).1 (by decide), ?_⟩
  have h := (claim_C2_erase mapB 4 (by decide)).2 40 (by decide)
  exact ⟨h.1, h.2.1, h.2.2.1 2 (by decide)⟩

/-! ### `insert_or_assign`: unfolding lemmas and preservation -/

theorem set_of_getElem?_eq {α : Type} {l : List α} {i : Nat} {a : α}
    (h : l[i]? = some a) : l.set i a = l := by
  induction l generalizing i with
  | nil => simp at h
  | cons x rest ih =>
    cases i with
    | zero =>
      simp only [List.getElem?_cons_zero, Option.some_inj] at h
      rw [h]
      simp
    | succ j =>
      rw [List.set_cons_succ, ih (by simpa using h)]

theorem keys_nodup_append {l : List (K × V)} {k : K} {v : V}
    (hnd : (l.map Prod.fst).Nodup) (hnotin : ∀ p ∈ l, p.1 ≠ k) :
    ((l ++ [(k, v)]).map Prod.fst).Nodup := by
  rw [List.map_append]
  refine List.Nodup.append hnd (by simp) ?_
  intro a ha hb'
  simp only [List.map_cons, List.map_nil, List.mem_singleton] at hb'
  subst hb'
  obtain ⟨p, hp, hpk⟩ := List.mem_map.1 ha
  exact hnotin p hp hpk

theorem Bucket.lookup_append_self {l : List (K × V)} {s : Nat} {k : K} {v : V}
    (hnd : (l.map Prod.fst).Nodup) (hnotin : ∀ p ∈ l, p.1 ≠ k) :
    (Bucket.mk (l ++ [(k, v)]) s : Bucket K V).lookup k = some v :=
  Bucket.lookup_of_mem (keys_nodup_append hnd hnotin) (by simp)

theorem HashMap.insertOrAssign_present (m : HashMap K V) (k : K) (v v1 : V)
    (h : m.lookup k = some v1) :
    ∃ i, (m.bucketAt (m.bucketIdx k)).find k = some i ∧
      (m.bucketAt (m.bucketIdx k)).nodes[i]? = some (k, v1) ∧
      m.insertOrAssign (k, v) =
        (m.setBucket (m.bucketIdx k)
           ⟨(m.bucketAt (m.bucketIdx k)).nodes.set i (k, v),
            (m.bucketAt (m.bucketIdx k)).m_size⟩,
         ⟨m.bucketIdx k, NodeRef.node (m.bucketIdx k) i⟩) := by
  obtain ⟨i, hf, hget⟩ := Bucket.lookup_eq_some_iff.1 h
  refine ⟨i, hf, hget, ?_⟩
  rw [HashMap.insertOrAssign]
  simp only [Bucket.insertOrAssign, hf, mkIterator_node]

theorem HashMap.insertOrAssign_absent (m : HashMap K V) (k : K) (v : V)
    (h : m.lookup k = none) :
    m.insertOrAssign (k, v) =
      (m.setBucket (m.bucketIdx k)
         ⟨(m.bucketAt (m.bucketIdx k)).nodes ++ [(k, v)],
          (m.bucketAt (m.bucketIdx k)).m_size + 1⟩,
       ⟨m.bucketIdx k, NodeRef.node (m.bucketIdx k)
          (m.bucketAt (m.bucketIdx k)).nodes.length⟩) := by
  have hf : (m.bucketAt (m.bucketIdx k)).find k = none :=
    Bucket.find_eq_none_iff.2 (Bucket.lookup_eq_none_iff.1 h)
  rw [HashMap.insertOrAssign]
  simp only [Bucket.insertOrAssign, hf, mkIterator_node]

theorem HashMap.WF.insertOrAssign {m : HashMap K V} (hwf : m.WF) (k : K) (v : V) :
    (m.insertOrAssign (k, v)).1.WF := by
  cases h : m.lookup k with
  | none =>
    have : (m.insertOrAssign (k, v)).1 = (m.insert (k, v)).1 := by
      rw [m.insertOrAssign_absent k v h, m.insert_absent k v h]
    rw [this]
    exact hwf.insert k v
  | some v1 =>
    obtain ⟨i, hf, hget, heq⟩ := m.insertOrAssign_present k v v1 h
    rw [heq]
    set bi := m.bucketIdx k with hbi
    have hbl := hwf.idx_lt k
    have hold := hwf.bucketWF bi (m.bucketIdx_lt k hwf.count_pos)
    refine ⟨hwf.count_pos, by rw [HashMap.length_setBucket]; exact hwf.len_eq, ?_⟩
    intro b hb
    rw [HashMap.length_setBucket] at hb
    by_cases hcase : bi = b
    · subst hcase
      rw [HashMap.bucketAt_setBucket_self _ _ _ hbl]
      have hkeys : ((m.bucketAt bi).nodes.set i (k, v)).map Prod.fst
          = (m.bucketAt bi).nodes.map Prod.fst := by
        rw [List.map_set]
        exact set_of_getElem?_eq (by rw [List.getElem?_map, hget]; rfl)
      refine ⟨by simp [hold.1], by rw [hkeys]; exact hold.2.1, ?_⟩
      intro p hp
      rcases List.mem_or_eq_of_mem_set hp with hp' | hp'
      · exact hold.2.2 p hp'
      · subst hp'
        exact hold.2.2 (k, v1) (List.getElem?_mem hget)
    · rw [HashMap.bucketAt_setBucket_ne _ _ _ _ hcase]
      exact hwf.2.2 b hb

/-- Claim C3: on a well-formed map, `insert_or_assign(k, v2)` with `k`
present replaces the stored pair wholesale by `(k, v2)`, returns a cursor
at that entry, and leaves `size()` unchanged; with `k` absent it inserts
`(k, v2)` and `size()` grows by 1. -/
theorem claim_C3_insert_or_assign (m : HashMap K V) (k : K) (v2 : V) (hwf : m.WF) :
    (∀ v1, m.lookup k = some v1 →
      (m.insertOrAssign (k, v2)).1.lookup k = some v2 ∧
      (m.insertOrAssign (k, v2)).1.size = m.size ∧
      (m.insertOrAssign (k, v2)).1.refPair ((m.insertOrAssign (k, v2)).2).ref
        = some (k, v2)) ∧
    (m.lookup k = none →
      (m.insertOrAssign (k, v2)).1.lookup k = some v2 ∧
      (m.insertOrAssign (k, v2)).1.size = m.size + 1 ∧
      (m.insertOrAssign (k, v2)).1.refPair ((m.insertOrAssign (k, v2)).2).ref
        = some (k, v2)) := by
  constructor
  · intro v1 h
    obtain ⟨i, hf, hget, heq⟩ := m.insertOrAssign_present k v2 v1 h
    set bi := m.bucketIdx k with hbi
    have hbl := hwf.idx_lt k
    have hold := hwf.bucketWF bi (m.bucketIdx_lt k hwf.count_pos)
    have hilt : i < (m.bucketAt bi).nodes.length := by
      by_contra hcon
      rw [List.getElem?_eq_none (Nat.le_of_not_lt hcon)] at hget
      exact Option.noConfusion hget
    have hkeys : (((m.bucketAt bi).nodes.set i (k, v2)).map Prod.fst).Nodup := by
      rw [List.map_set, set_of_getElem?_eq (by rw [List.getElem?_map, hget]; rfl)]
      exact hold.2.1
    have hgetset : ((m.bucketAt bi).nodes.set i (k, v2))[i]? = some (k, v2) :=
      List.getElem?_set_eq_of_lt _ (by simpa using hilt)
    rw [heq]
    refine ⟨?_, ?_, ?_⟩
    · rw [HashMap.lookup, HashMap.bucketIdx_setBucket, ← hbi,
        HashMap.bucketAt_setBucket_self _ _ _ hbl]
      exact Bucket.lookup_of_mem hkeys (List.getElem?_mem hgetset)
    · show (m.setBucket bi ⟨(m.bucketAt bi).nodes.set i (k, v2),
        (m.bucketAt bi).m_size⟩).size = m.size
      have hset := m.size_setBucket bi
        ⟨(m.bucketAt bi).nodes.set i (k, v2), (m.bucketAt bi).m_size⟩ hbl
      simp only [Bucket.size] at hset
      omega
    · show (HashMap.refPair _ (NodeRef.node bi i)) = _
      rw [HashMap.refPair, HashMap.bucketAt_setBucket_self _ _ _ hbl]
      exact hgetset
  · intro h
    rw [m.insertOrAssign_absent k v2 h]
    set bi := m.bucketIdx k with hbi
    have hbl := hwf.idx_lt k
    have hold := hwf.bucketWF bi (m.bucketIdx_lt k hwf.count_pos)
    have hnotin : ∀ p ∈ (m.bucketAt bi).nodes, p.1 ≠ k :=
      Bucket.lookup_eq_none_iff.1 h
    refine ⟨?_, ?_, ?_⟩
    · rw [HashMap.lookup, HashMap.bucketIdx_setBucket, ← hbi,
        HashMap.bucketAt_setBucket_self _ _ _ hbl]
      exact Bucket.lookup_append_self hold.2.1 hnotin
    · show (m.setBucket bi ⟨(m.bucketAt bi).nodes ++ [(k, v2)],
        (m.bucketAt bi).m_size + 1⟩).size = m.size + 1
      have hset := m.size_setBucket bi
        ⟨(m.bucketAt bi).nodes ++ [(k, v2)], (m.bucketAt bi).m_size + 1⟩ hbl
      simp only [Bucket.size] at hset
      omega
    · show (HashMap.refPair _ (NodeRef.node bi _)) = _
      rw [HashMap.refPair, HashMap.bucketAt_setBucket_self _ _ _ hbl]
      simp

/-- Witness for C3: on the concrete map `{1 ↦ 10, 2 ↦ 20, 4 ↦ 40}`,
`insert_or_assign(1, 99)` overwrites the stored value and keeps the size;
`insert_or_assign(7, 70)` inserts and grows the size. -/
theorem claim_C3_insert_or_assign_witness :
    ((mapB.insertOrAssign (1, 99)).1.lookup 1 = some 99 ∧
     (mapB.insertOrAssign (1, 99)).1.size = mapB.size) ∧
    ((mapB.insertOrAssign (7, 70)).1.lookup 7 = some 70 ∧
     (mapB.insertOrAssign (7, 70)).1.size = mapB.size + 1) := by
  refine ⟨?_, ?_⟩
  · have h := (claim_C3_insert_or_assign mapB 1 99 (by decide)).1 10 (by decide)
    exact ⟨h.1, h.2.1⟩
  · have h := (claim_C3_insert_or_assign mapB 7 70 (by decide)).2 (by decide)
    exact ⟨h.1, h.2.1⟩

/-! ### `operator[]`: unfolding lemmas and preservation -/

theorem HashMap.find_hit (m : HashMap K V) (k : K) (v : V) (h : m.lookup k = some v) :
    ∃ i, m.find k = ⟨m.bucketIdx k, NodeRef.node (m.bucketIdx k) i⟩ ∧
      (m.bucketAt (m.bucketIdx k)).nodes[i]? = some (k, v) := by
  obtain ⟨i, hf, hget⟩ := Bucket.lookup_eq_some_iff.1 h
  refine ⟨i, ?_, hget⟩
  rw [HashMap.find]
  simp only [hf, mkIterator_node]

theorem cursorEq_node_end (m : HashMap K V) (bi b i : Nat) (h : bi ≠ m.bucket_count) :
    cursorEq m.bucket_count ⟨bi, NodeRef.node b i⟩ m.endIter = false := by
  rw [HashMap.endIter, mkIterator_null, cursorEq]
  simp [h]

theorem HashMap.getOrInsert_present [Inhabited V] (m : HashMap K V) (k : K) (v : V)
    (hwf : m.WF) (h : m.lookup k = some v) :
    ∃ i, (m.bucketAt (m.bucketIdx k)).nodes[i]? = some (k, v) ∧
      m.getOrInsert k = (m, NodeRef.node (m.bucketIdx k) i) := by
  obtain ⟨i, hfind, hget⟩ := m.find_hit k v h
  refine ⟨i, hget, ?_⟩
  rw [HashMap.getOrInsert]
  simp only [hfind]
  rw [cursorEq_node_end m _ _ _ (Nat.ne_of_lt (m.bucketIdx_lt k hwf.count_pos))]
  simp

theorem HashMap.getOrInsert_absent [Inhabited V] (m : HashMap K V) (k : K)
    (h : m.lookup k = none) :
    m.getOrInsert k = ((m.insert (k, (default : V))).1, (m.insert (k, (default : V))).2.1.ref) := by
  rw [HashMap.getOrInsert]
  simp only [m.find_miss k h]
  simp

theorem HashMap.WF.getOrInsert [Inhabited V] {m : HashMap K V} (hwf : m.WF) (k : K) :
    (m.getOrInsert k).1.WF := by
  cases h : m.lookup k with
  | some v =>
    obtain ⟨i, _, heq⟩ := m.getOrInsert_present k v hwf h
    rw [heq]
    exact hwf
  | none =>
    rw [m.getOrInsert_absent k h]
    exact hwf.insert k default

/-! ### `clear`: unfolding lemmas and preservation -/

theorem Bucket.clear_eq (bk : Bucket K V) :
    bk.clear = ⟨[], bk.m_size - bk.nodes.length⟩ := by
  obtain ⟨nodes, s⟩ := bk
  induction nodes generalizing s with
  | nil => rw [Bucket.clear]; simp
  | cons p rest ih =>
    rw [Bucket.clear, ih]
    simp only [List.length_cons]
    congr 1
    omega

theorem HashMap.bucketAt_clear (m : HashMap K V) (b : Nat) :
    m.clear.bucketAt b = (m.bucketAt b).clear ∨
      (m.buckets.length ≤ b ∧ m.clear.bucketAt b = ⟨[], 0⟩) := by
  by_cases hb : b < m.buckets.length
  · left
    rw [HashMap.clear, HashMap.bucketAt, HashMap.bucketAt]
    simp only [List.getElem?_map]
    rw [List.getElem?_eq_getElem hb]
    rfl
  · right
    refine ⟨Nat.le_of_not_lt hb, ?_⟩
    rw [HashMap.clear, HashMap.bucketAt]
    simp only [List.getElem?_map]
    rw [List.getElem?_eq_none (by simpa using Nat.le_of_not_lt hb)]
    rfl

theorem HashMap.WF.clear {m : HashMap K V} (hwf : m.WF) : m.clear.WF := by
  refine ⟨hwf.count_pos, ?_, ?_⟩
  · rw [HashMap.clear]
    simpa using hwf.len_eq
  · intro b hb
    rw [HashMap.clear] at hb
    simp only [List.length_map] at hb
    rcases m.bucketAt_clear b with hcl | ⟨hge, _⟩
    · rw [hcl, Bucket.clear_eq, (hwf.2.2 b hb).1]
      exact ⟨by simp, by simp, by simp⟩
    · exact absurd hb (Nat.not_lt_of_le hge)

/-- Claim C4: on a well-formed map, `operator[](k)` with `k` present
returns the map unchanged together with an accessor whose `get()` is the
stored value; with `k` absent it inserts `(k, default)` — growing `size()`
by exactly 1 — and returns an accessor to the new entry. -/
theorem claim_C4_subscript [Inhabited K] [Inhabited V] (m : HashMap K V) (k : K)
    (hwf : m.WF) :
    (∀ v, m.lookup k = some v →
      (m.getOrInsert k).1 = m ∧ (m.getOrInsert k).1.refGet (m.getOrInsert k).2 = v) ∧
    (m.lookup k = none →
      (m.getOrInsert k).1.size = m.size + 1 ∧
      (m.getOrInsert k).1.refPair (m.getOrInsert k).2 = some (k, (default : V)) ∧
      (m.getOrInsert k).1.lookup k = some (default : V)) := by
  constructor
  · intro v h
    obtain ⟨i, hget, heq⟩ := m.getOrInsert_present k v hwf h
    rw [heq]
    refine ⟨rfl, ?_⟩
    rw [HashMap.refGet, HashMap.refPair, hget]
    rfl
  · intro h
    rw [m.getOrInsert_absent k h, m.insert_absent k (default : V) h]
    set bi := m.bucketIdx k with hbi
    have hbl := hwf.idx_lt k
    have hold := hwf.bucketWF bi (m.bucketIdx_lt k hwf.count_pos)
    have hnotin : ∀ p ∈ (m.bucketAt bi).nodes, p.1 ≠ k :=
      Bucket.lookup_eq_none_iff.1 h
    refine ⟨?_, ?_, ?_⟩
    · show (m.setBucket bi ⟨(m.bucketAt bi).nodes ++ [(k, default)],
        (m.bucketAt bi).m_size + 1⟩).size = m.size + 1
      have hset := m.size_setBucket bi
        ⟨(m.bucketAt bi).nodes ++ [(k, default)], (m.bucketAt bi).m_size + 1⟩ hbl
      simp only [Bucket.size] at hset
      omega
    · show (HashMap.refPair _ (NodeRef.node bi _)) = _
      rw [HashMap.refPair, HashMap.bucketAt_setBucket_self _ _ _ hbl]
      simp
    · rw [HashMap.lookup, HashMap.bucketIdx_setBucket, ← hbi,
        HashMap.bucketAt_setBucket_self _ _ _ hbl]
      exact Bucket.lookup_append_self hold.2.1 hnotin

/-- Witness for C4: on the concrete map `{1 ↦ 10, 2 ↦ 20, 4 ↦ 40}`,
`map[2]` returns an accessor reading 20 without changing the map, and
`map[5]` inserts a default-valued entry, growing the size by 1. -/
theorem claim_C4_subscript_witness :
    ((mapB.getOrInsert 2).1 = mapB ∧ (mapB.getOrInsert 2).1.refGet (mapB.getOrInsert 2).2 = 20) ∧
    ((mapB.getOrInsert 5).1.size = mapB.size + 1 ∧
     (mapB.getOrInsert 5).1.lookup 5 = some 0) := by
  refine ⟨(claim_C4_subscript mapB 2 (by decide)).1 20 (by decide), ?_⟩
  have h := (claim_C4_subscript mapB 5 (by decide)).2 (by decide)
  exact ⟨h.1, h.2.2⟩

/-! ### Reachability and the structural invariants -/

theorem HashMap.WF.applyOp [Inhabited V] {m : HashMap K V} (hwf : m.WF) (op : Op K V) :
    (m.applyOp op).WF := by
  cases op with
  | insert k v => exact hwf.insert k v
  | insertOrAssign k v => exact hwf.insertOrAssign k v
  | erase k => exact hwf.eraseKey k
  | getOrInsert k => exact hwf.getOrInsert k
  | clear => exact hwf.clear

theorem WF_foldl [Inhabited V] (ops : List (Op K V)) (m : HashMap K V) (hwf : m.WF) :
    (ops.foldl HashMap.applyOp m).WF := by
  induction ops generalizing m with
  | nil => exact hwf
  | cons op rest ih => exact ih _ (hwf.applyOp op)

theorem WF_runOps [Inhabited V] (count : Nat) (hash : K → Nat) (ops : List (Op K V))
    (h : 0 < count) : (runOps count hash ops).WF :=
  WF_foldl ops _ (WF_mkEmpty count hash h)

theorem HashMap.bucketAt_eq_getElem (m : HashMap K V) (b : Nat)
    (h : b < m.buckets.length) : m.bucketAt b = m.buckets[b] := by
  rw [HashMap.bucketAt, List.getElem?_eq_getElem h]
  rfl

theorem HashMap.bucketAt_nodes_nil_of_ge (m : HashMap K V) (b : Nat)
    (h : m.buckets.length ≤ b) : (m.bucketAt b).nodes = [] := by
  rw [HashMap.bucketAt, List.getElem?_eq_none h]
  rfl

theorem HashMap.WF.key_placement {m : HashMap K V} (hwf : m.WF) :
    ∀ b, ∀ p ∈ (m.bucketAt b).nodes, m.hash p.1 % m.bucket_count = b := by
  intro b p hp
  by_cases hb : b < m.buckets.length
  · exact (hwf.2.2 b hb).2.2 p hp
  · rw [m.bucketAt_nodes_nil_of_ge b (Nat.le_of_not_lt hb)] at hp
    simp at hp

theorem nodup_keys_getElem?_inj {l : List (K × V)} {i1 i2 : Nat} {p1 p2 : K × V}
    (hnd : (l.map Prod.fst).Nodup) (h1 : l[i1]? = some p1) (h2 : l[i2]? = some p2)
    (hk : p1.1 = p2.1) : i1 = i2 := by
  have hm1 : (l.map Prod.fst)[i1]? = some p1.1 := by rw [List.getElem?_map, h1]; rfl
  have hm2 : (l.map Prod.fst)[i2]? = some p2.1 := by rw [List.getElem?_map, h2]; rfl
  have hlt : i1 < (l.map Prod.fst).length := by
    by_contra hcon
    rw [List.getElem?_eq_none (Nat.le_of_not_lt hcon)] at hm1
    exact Option.noConfusion hm1
  exact List.getElem?_inj hlt hnd (by rw [hm1, hm2, hk])

theorem HashMap.WF.key_unique {m : HashMap K V} (hwf : m.WF) :
    ∀ (b1 b2 i1 i2 : Nat) (p1 p2 : K × V),
      (m.bucketAt b1).nodes[i1]? = some p1 → (m.bucketAt b2).nodes[i2]? = some p2 →
      p1.1 = p2.1 → b1 = b2 ∧ i1 = i2 := by
  intro b1 b2 i1 i2 p1 p2 h1 h2 hk
  have hb1 : m.hash p1.1 % m.bucket_count = b1 :=
    hwf.key_placement b1 p1 (List.getElem?_mem h1)
  have hb2 : m.hash p2.1 % m.bucket_count = b2 :=
    hwf.key_placement b2 p2 (List.getElem?_mem h2)
  have hb : b1 = b2 := by rw [← hb1, ← hb2, hk]
  subst hb
  have hblt : b1 < m.buckets.length := by
    by_contra hcon
    rw [m.bucketAt_nodes_nil_of_ge b1 (Nat.le_of_not_lt hcon)] at h1
    simp at h1
  have hnd := (hwf.2.2 b1 hblt).2.1
  exact ⟨rfl, nodup_keys_getElem?_inj hnd h1 h2 hk⟩

theorem HashMap.WF.size_eq_sum_lengths {m : HashMap K V} (hwf : m.WF) :
    m.size = (m.buckets.map (fun bk => bk.nodes.length)).sum := by
  rw [HashMap.size]
  congr 1
  refine List.map_congr_left ?_
  intro bk hbk
  obtain ⟨b, hb, rfl⟩ := List.mem_iff_getElem.1 hbk
  have h1 := (hwf.2.2 b hb).1
  rw [m.bucketAt_eq_getElem b hb] at h1
  exact h1

/-- Claim C5: after every operation sequence from an empty map, every live
key appears in exactly one node (any two nodes holding the same key are the
same node), that node resides in the bucket with index
`hash(key) mod bucket_count`, and `size()` equals the sum over all buckets
of that bucket's node count. -/
theorem claim_C5_invariants [Inhabited V] (count : Nat) (hash : K → Nat)
    (ops : List (Op K V)) (h : 0 < count) :
    (∀ b, ∀ p ∈ ((runOps count hash ops).bucketAt b).nodes,
      (runOps count hash ops).hash p.1 % (runOps count hash ops).bucket_count = b) ∧
    (∀ (b1 b2 i1 i2 : Nat) (p1 p2 : K × V),
      ((runOps count hash ops).bucketAt b1).nodes[i1]? = some p1 →
      ((runOps count hash ops).bucketAt b2).nodes[i2]? = some p2 →
      p1.1 = p2.1 → b1 = b2 ∧ i1 = i2) ∧
    (runOps count hash ops).size =
      ((runOps count hash ops).buckets.map (fun bk => bk.nodes.length)).sum := by
  have hwf := WF_runOps count hash ops h
  exact ⟨hwf.key_placement, hwf.key_unique, hwf.size_eq_sum_lengths⟩

/-- Witness for C5: a concrete six-operation run on two buckets satisfies
the size/placement invariants. -/
theorem claim_C5_invariants_witness :
    (runOps 2 hashId opsW).size =
      ((runOps 2 hashId opsW).buckets.map (fun bk => bk.nodes.length)).sum :=
  (claim_C5_invariants 2 hashId opsW (by decide)).2.2

/-! ### The bucket-scan loop `findNonempty` -/

theorem findNonempty_spec (m : HashMap K V) :
    ∀ d b, m.bucket_count - b ≤ d → b ≤ m.bucket_count →
      b ≤ findNonempty m b ∧ findNonempty m b ≤ m.bucket_count ∧
      (∀ x, b ≤ x → x < findNonempty m b → (m.bucketAt x).nodes = []) ∧
      (findNonempty m b < m.bucket_count → (m.bucketAt (findNonempty m b)).nodes ≠ []) := by
  intro d
  induction d with
  | zero =>
    intro b hb hble
    have hnb : ¬ b < m.bucket_count := by omega
    rw [findNonempty, dif_neg hnb]
    exact ⟨by omega, Nat.le_refl _, fun x hx hx' => by omega, fun hcon => by omega⟩
  | succ d ih =>
    intro b hb hble
    by_cases hlt : b < m.bucket_count
    · rw [findNonempty, dif_pos hlt]
      by_cases hemp : (m.bucketAt b).isEmpty
      · rw [if_pos hemp]
        obtain ⟨h1, h2, h3, h4⟩ := ih (b + 1) (by omega) (by omega)
        refine ⟨by omega, h2, ?_, h4⟩
        intro x hx hx'
        rcases Nat.eq_or_lt_of_le hx with rfl | hx2
        · exact List.isEmpty_iff.1 hemp
        · exact h3 x hx2 hx'
      · rw [if_neg hemp]
        refine ⟨Nat.le_refl _, Nat.le_of_lt hlt, fun x hx hx' => by omega, ?_⟩
        intro _ hcon
        exact hemp (List.isEmpty_iff.2 hcon)
    · rw [findNonempty, dif_neg hlt]
      exact ⟨by omega, Nat.le_refl _, fun x hx hx' => by omega, fun hcon => by omega⟩

/-- Claim C7: on a well-formed map, `begin() == end()` holds exactly when
the container holds no elements, equivalently when `size() == 0`,
equivalently when `empty()` is true. -/
theorem claim_C7_begin_eq_end (m : HashMap K V) (hwf : m.WF) :
    ((cursorEq m.bucket_count m.begin m.endIter = true) ↔ m.size = 0) ∧
    (m.size = 0 ↔ m.empty = true) := by
  have hall : m.size = 0 ↔ ∀ bk ∈ m.buckets, bk.nodes = [] := by
    rw [HashMap.size, List.sum_eq_zero_iff]
    constructor
    · intro h bk hbk
      obtain ⟨b, hb, rfl⟩ := List.mem_iff_getElem.1 hbk
      have hs : (m.buckets[b]).size = 0 := h _ (List.mem_map_of_mem Bucket.size (List.getElem_mem hb))
      have hlen := (hwf.2.2 b hb).1
      rw [m.bucketAt_eq_getElem b hb] at hlen
      rw [Bucket.size] at hs
      exact List.eq_nil_of_length_eq_zero (by omega)
    · intro h x hx
      obtain ⟨bk, hbk, rfl⟩ := List.mem_map.1 hx
      obtain ⟨b, hb, rfl⟩ := List.mem_iff_getElem.1 hbk
      have hlen := (hwf.2.2 b hb).1
      rw [m.bucketAt_eq_getElem b hb] at hlen
      rw [Bucket.size, hlen, h _ (List.getElem_mem hb)]
      rfl
  have hemp : m.empty = true ↔ ∀ bk ∈ m.buckets, bk.nodes = [] := by
    rw [HashMap.empty, List.all_eq_true]
    constructor
    · intro h bk hbk
      exact List.isEmpty_iff.1 (h bk hbk)
    · intro h bk hbk
      exact List.isEmpty_iff.2 (h bk hbk)
  obtain ⟨hge, hle, hbetween, hnonempty⟩ :=
    findNonempty_spec m (m.bucket_count - 0) 0 (Nat.le_refl _) (Nat.zero_le _)
  refine ⟨?_, hall.trans hemp.symm⟩
  by_cases hj : findNonempty m 0 = m.bucket_count
  · rw [HashMap.begin]
    simp only [hj, if_pos rfl, mkIterator_null]
    rw [HashMap.endIter, mkIterator_null, cursorEq, if_pos ⟨rfl, rfl⟩]
    simp only [true_iff]
    refine hall.2 ?_
    intro bk hbk
    obtain ⟨b, hb, rfl⟩ := List.mem_iff_getElem.1 hbk
    have hbc : b < m.bucket_count := by rw [← hwf.len_eq]; exact hb
    have := hbetween b (Nat.zero_le b) (by omega)
    rw [m.bucketAt_eq_getElem b hb] at this
    exact this
  · have hjlt : findNonempty m 0 < m.bucket_count := Nat.lt_of_le_of_ne hle hj
    rw [HashMap.begin]
    simp only [if_neg hj, mkIterator_node]
    rw [HashMap.endIter, mkIterator_null, cursorEq]
    rw [if_neg (by intro hcon; exact hj hcon.1)]
    simp only [decide_eq_true_eq]
    constructor
    · intro hcon
      exact absurd hcon (by simp)
    · intro hsz
      have hnil := hall.1 hsz
      refine absurd ?_ (hnonempty hjlt)
      have hjl : findNonempty m 0 < m.buckets.length := by rw [hwf.len_eq]; exact hjlt
      rw [m.bucketAt_eq_getElem _ hjl]
      exact hnil _ (List.getElem_mem hjl)

/-- Witness for C7: `begin() == end()` on the concrete empty map, and
`begin() != end()` on the concrete three-element map. -/
theorem claim_C7_begin_eq_end_witness :
    (cursorEq mapE.bucket_count mapE.begin mapE.endIter = true) ∧
    (cursorEq mapB.bucket_count mapB.begin mapB.endIter = false) := by
  constructor
  · exact ((claim_C7_begin_eq_end mapE (by decide)).1).2 (by decide)
  · have h := (claim_C7_begin_eq_end mapB (by decide)).1
    cases hc : cursorEq mapB.bucket_count mapB.begin mapB.endIter
    · rfl
    · exact absurd (h.1 hc) (by decide)

/-! ### `Reference`: whole-pair stores and frame conditions -/

theorem HashMap.refPair_node_inv {m : HashMap K V} {b i : Nat} {p : K × V}
    (h : m.refPair (NodeRef.node b i) = some p) :
    b < m.buckets.length ∧ i < (m.bucketAt b).nodes.length := by
  rw [HashMap.refPair] at h
  constructor
  · by_contra hcon
    rw [m.bucketAt_nodes_nil_of_ge b (Nat.le_of_not_lt hcon)] at h
    simp at h
  · by_contra hcon
    rw [List.getElem?_eq_none (Nat.le_of_not_lt hcon)] at h
    exact Option.noConfusion h

theorem HashMap.refSetPair_spec (m : HashMap K V) {b i : Nat} {q : K × V}
    (h : m.refPair (NodeRef.node b i) = some q) (p : K × V) :
    (m.refSetPair (NodeRef.node b i) p).refPair (NodeRef.node b i) = some p ∧
    (∀ r', r' ≠ NodeRef.node b i →
      (m.refSetPair (NodeRef.node b i) p).refPair r' = m.refPair r') := by
  obtain ⟨hbl, hilt⟩ := m.refPair_node_inv h
  constructor
  · rw [HashMap.refSetPair, HashMap.refPair, HashMap.bucketAt_setBucket_self _ _ _ hbl]
    exact List.getElem?_set_eq_of_lt p (by simpa using hilt)
  · intro r' hr'
    cases r' with
    | null => rfl
    | sentinel b' => rfl
    | node b' i' =>
      rw [HashMap.refSetPair, HashMap.refPair, HashMap.refPair]
      by_cases hbb : b = b'
      · subst hbb
        have hii : i ≠ i' := fun hcon => hr' (by rw [hcon])
        rw [HashMap.bucketAt_setBucket_self _ _ _ hbl]
        exact List.getElem?_set_ne hii
      · rw [HashMap.bucketAt_setBucket_ne _ _ _ _ hbb]

/-- Claim C9: for an entry holding `(k, v1)`, `set(v2)` through an accessor
replaces the stored pair by the whole pair `(k, v2)` — the key field
unchanged — and touches no other entry; `set_pair(p)` replaces the whole
stored pair by `p` (touching no other entry); `get()` reads the stored
mapped value `v1`. -/
theorem claim_C9_reference [Inhabited K] [Inhabited V] (m : HashMap K V) (r : NodeRef)
    (k : K) (v1 : V) (h : m.refPair r = some (k, v1)) :
    (∀ v2 : V,
      (m.refSet r v2).refPair r = some (k, v2) ∧
      (∀ r', r' ≠ r → (m.refSet r v2).refPair r' = m.refPair r')) ∧
    (∀ p : K × V,
      (m.refSetPair r p).refPair r = some p ∧
      (∀ r', r' ≠ r → (m.refSetPair r p).refPair r' = m.refPair r')) ∧
    m.refGet r = v1 := by
  have hnode : ∃ b i, r = NodeRef.node b i := by
    cases r with
    | null => exact Option.noConfusion h
    | sentinel b => exact Option.noConfusion h
    | node b i => exact ⟨b, i, rfl⟩
  obtain ⟨b, i, rfl⟩ := hnode
  refine ⟨?_, fun p => m.refSetPair_spec h p, ?_⟩
  · intro v2
    have heq : m.refSet (NodeRef.node b i) v2 = m.refSetPair (NodeRef.node b i) (k, v2) := by
      rw [HashMap.refSet, h]
      rfl
    rw [heq]
    exact m.refSetPair_spec h (k, v2)
  · rw [HashMap.refGet, h]
    rfl

/-- Witness for C9: on the concrete map `{1 ↦ 10, 2 ↦ 20, 4 ↦ 40}` the
first node of bucket 0 holds `(2, 20)`; `set 99` turns it into `(2, 99)`
while leaving the neighbouring node `(4, 40)` alone, and `get()` reads
20. -/
theorem claim_C9_reference_witness :
    (mapB.refSet (NodeRef.node 0 0) 99).refPair (NodeRef.node 0 0) = some (2, 99) ∧
    (mapB.refSet (NodeRef.node 0 0) 99).refPair (NodeRef.node 0 1) =
      mapB.refPair (NodeRef.node 0 1) ∧
    mapB.refGet (NodeRef.node 0 0) = 20 := by
  have h := claim_C9_reference mapB (NodeRef.node 0 0) 2 20 (by decide)
  exact ⟨(h.1 99).1, (h.1 99).2 (NodeRef.node 0 1) (by decide), h.2.2⟩

/-! ### `erase(iterator)` -/

theorem HashMap.lookup_of_node {m : HashMap K V} (hwf : m.WF) {b i : Nat} {k : K} {v : V}
    (hget : (m.bucketAt b).nodes[i]? = some (k, v)) :
    m.bucketIdx k = b ∧ m.lookup k = some v := by
  have hmem : (k, v) ∈ (m.bucketAt b).nodes := List.getElem?_mem hget
  have hb : m.hash k % m.bucket_count = b := hwf.key_placement b (k, v) hmem
  have hblt : b < m.buckets.length := by
    by_contra hcon
    rw [m.bucketAt_nodes_nil_of_ge b (Nat.le_of_not_lt hcon)] at hmem
    simp at hmem
  have hbi : m.bucketIdx k = b := hb
  refine ⟨hbi, ?_⟩
  rw [HashMap.lookup, hbi]
  exact Bucket.lookup_of_mem (hwf.2.2 b hblt).2.1 hmem

theorem HashMap.eraseKey_present_spec (m : HashMap K V) (k : K) (v : V) (hwf : m.WF)
    (h : m.lookup k = some v) :
    (m.eraseKey k).size + 1 = m.size ∧ (m.eraseKey k).lookup k = none := by
  obtain ⟨i, hf, hget, heq⟩ := m.eraseKey_present k v h
  set bi := m.bucketIdx k with hbi
  have hbl := hwf.idx_lt k
  have hold := hwf.bucketWF bi (m.bucketIdx_lt k hwf.count_pos)
  have hilt : i < (m.bucketAt bi).nodes.length := by
    by_contra hcon
    rw [List.getElem?_eq_none (Nat.le_of_not_lt hcon)] at hget
    exact Option.noConfusion hget
  constructor
  · rw [heq]
    have hset := m.size_setBucket bi
      ⟨(m.bucketAt bi).nodes.eraseIdx i, (m.bucketAt bi).m_size - 1⟩ hbl
    simp only [Bucket.size] at hset
    have : 0 < (m.bucketAt bi).m_size := by
      rw [hold.1]
      exact Nat.lt_of_le_of_lt (Nat.zero_le i) hilt
    omega
  · rw [heq, HashMap.lookup, HashMap.bucketIdx_setBucket, ← hbi,
      HashMap.bucketAt_setBucket_self _ _ _ hbl]
    exact Bucket.lookup_eq_none_iff.2 (keys_not_mem_eraseIdx hold.2.1 hget)

/-- Claim C8: `erase(cursor)` on a valid non-terminal cursor first computes
the successor of the cursor in the pre-erase map, then erases the entry at
the cursor's current key, and returns exactly that precomputed successor;
the erased key is gone afterwards and `size()` drops by 1. -/
theorem claim_C8_erase_cursor [Inhabited K] [Inhabited V] (m : HashMap K V) (c : Cursor)
    (i : Nat) (k : K) (v : V) (hwf : m.WF)
    (href : c.ref = NodeRef.node c.index i)
    (hpair : m.refPair c.ref = some (k, v)) :
    (m.eraseIter c).2 = Cursor.inc m c ∧
    (m.eraseIter c).1 = m.eraseKey k ∧
    (m.eraseIter c).1.lookup k = none ∧
    (m.eraseIter c).1.size + 1 = m.size := by
  have hstate : m.eraseIter c = (m.eraseKey k, Cursor.inc m c) := by
    rw [HashMap.eraseIter, hpair]
    rfl
  rw [href] at hpair
  obtain ⟨_, hlook⟩ := HashMap.lookup_of_node hwf hpair
  obtain ⟨hsize, hnone⟩ := m.eraseKey_present_spec k v hwf hlook
  rw [hstate]
  exact ⟨rfl, rfl, hnone, hsize⟩

/-- Witness for C8: on the concrete map `{1 ↦ 10, 2 ↦ 20, 4 ↦ 40}`, erasing
through a cursor at the node `(2, 20)` returns the precomputed successor
`(4, 40)` position, removes key 2, and shrinks the size. -/
theorem claim_C8_erase_cursor_witness :
    (mapB.eraseIter ⟨0, NodeRef.node 0 0⟩).2 = Cursor.inc mapB ⟨0, NodeRef.node 0 0⟩ ∧
    (mapB.eraseIter ⟨0, NodeRef.node 0 0⟩).1.lookup 2 = none ∧
    (mapB.eraseIter ⟨0, NodeRef.node 0 0⟩).1.size + 1 = mapB.size := by
  have h := claim_C8_erase_cursor mapB ⟨0, NodeRef.node 0 0⟩ 0 2 20
    (by decide) (by decide) (by decide)
  exact ⟨h.1, h.2.2.1, h.2.2.2⟩

/-! ### The terminal-cursor construction indexes past the bucket array -/

/-- Claim C10 fails on the code: the `IteratorHelper` constructor reads
`m_buckets[m_index].end()` before any index check, and `HashMap::end()`
(and `begin()` on an all-empty map) invokes it with
`m_index == BUCKET_COUNT`; in the checked embedding that bucket-array
access is the out-of-range case, so constructing the terminal cursor never
stays below `bucket_count`. -/
theorem claim_C10_end_out_of_range (m : HashMap K V) (hwf : m.WF) :
    m.endIterChecked = none := by
  rw [HashMap.endIterChecked, mkIteratorChecked]
  have h : m.buckets[m.bucket_count]? = none :=
    List.getElem?_eq_none (by rw [hwf.len_eq])
  rw [h]

/-- Witness for C10: already on a freshly constructed two-bucket map,
constructing `end()` through the checked constructor hits the
out-of-range bucket access. -/
theorem claim_C10_end_out_of_range_witness : mapE.endIterChecked = none :=
  claim_C10_end_out_of_range mapE (by decide)

/-! ### Full traversal -/

theorem traverseFrom_terminal (m : HashMap K V) (n : Nat) (c : Cursor)
    (h : c.index = m.bucket_count) : traverseFrom m n c = [] := by
  cases n with
  | zero => rfl
  | succ n => rw [traverseFrom, if_pos h]

theorem flattenFrom_ge (m : HashMap K V) (b : Nat) (h : ¬ b < m.bucket_count) :
    flattenFrom m b = [] := by
  rw [flattenFrom, dif_neg h]

theorem flattenFrom_lt (m : HashMap K V) (b : Nat) (h : b < m.bucket_count) :
    flattenFrom m b = (m.bucketAt b).nodes ++ flattenFrom m (b + 1) := by
  rw [flattenFrom, dif_pos h]

theorem flattenFrom_skip (m : HashMap K V) :
    ∀ d b j, j - b ≤ d → b ≤ j → j ≤ m.bucket_count →
      (∀ x, b ≤ x → x < j → (m.bucketAt x).nodes = []) →
      flattenFrom m b = flattenFrom m j := by
  intro d
  induction d with
  | zero =>
    intro b j hd hbj hjc hemp
    have hbe : b = j := by omega
    rw [hbe]
  | succ d ih =>
    intro b j hd hbj hjc hemp
    rcases Nat.eq_or_lt_of_le hbj with rfl | hlt
    · rfl
    · have hbc : b < m.bucket_count := by omega
      rw [flattenFrom_lt m b hbc, hemp b (Nat.le_refl b) hlt, List.nil_append]
      exact ih (b + 1) j (by omega) (by omega) hjc (fun x hx hx' => hemp x (by omega) hx')

theorem mem_flattenFrom (m : HashMap K V) :
    ∀ d b p, m.bucket_count - b ≤ d →
      (p ∈ flattenFrom m b ↔
        ∃ x, b ≤ x ∧ x < m.bucket_count ∧ p ∈ (m.bucketAt x).nodes) := by
  intro d
  induction d with
  | zero =>
    intro b p hd
    rw [flattenFrom_ge m b (by omega)]
    refine ⟨fun hmem => absurd hmem (List.not_mem_nil p), ?_⟩
    rintro ⟨x, hx1, hx2, _⟩
    omega
  | succ d ih =>
    intro b p hd
    by_cases hb : b < m.bucket_count
    · rw [flattenFrom_lt m b hb, List.mem_append, ih (b + 1) p (by omega)]
      constructor
      · rintro (hp | ⟨x, hx1, hx2, hx3⟩)
        · exact ⟨b, Nat.le_refl b, hb, hp⟩
        · exact ⟨x, by omega, hx2, hx3⟩
      · rintro ⟨x, hx1, hx2, hx3⟩
        rcases Nat.eq_or_lt_of_le hx1 with rfl | hx1'
        · exact Or.inl hx3
        · exact Or.inr ⟨x, by omega, hx2, hx3⟩
    · rw [flattenFrom_ge m b hb]
      refine ⟨fun hmem => absurd hmem (List.not_mem_nil p), ?_⟩
      rintro ⟨x, hx1, hx2, _⟩
      omega

theorem flattenFrom_keys_nodup (m : HashMap K V) (hwf : m.WF) :
    ∀ d b, m.bucket_count - b ≤ d → ((flattenFrom m b).map Prod.fst).Nodup := by
  intro d
  induction d with
  | zero =>
    intro b hd
    rw [flattenFrom_ge m b (by omega)]
    exact List.nodup_nil
  | succ d ih =>
    intro b hd
    by_cases hb : b < m.bucket_count
    · rw [flattenFrom_lt m b hb, List.map_append]
      have hbl : b < m.buckets.length := by rw [hwf.len_eq]; exact hb
      refine List.Nodup.append ((hwf.2.2 b hbl).2.1) (ih (b + 1) (by omega)) ?_
      intro a ha ha'
      obtain ⟨p, hp, hpk⟩ := List.mem_map.1 ha
      obtain ⟨q, hq, hqk⟩ := List.mem_map.1 ha'
      obtain ⟨x, hx1, hx2, hx3⟩ :=
        (mem_flattenFrom m (m.bucket_count - (b + 1)) (b + 1) q (Nat.le_refl _)).1 hq
      have hpb : m.hash p.1 % m.bucket_count = b := hwf.key_placement b p hp
      have hqb : m.hash q.1 % m.bucket_count = x := hwf.key_placement x q hx3
      have hkeq : p.1 = q.1 := by rw [hpk, hqk]
      rw [hkeq, hqb] at hpb
      omega
    · rw [flattenFrom_ge m b hb]
      exact List.nodup_nil

theorem traverse_walk (m : HashMap K V) :
    ∀ n b i, b < m.bucket_count → i < (m.bucketAt b).nodes.length →
      n = ((m.bucketAt b).nodes.length - i) + (flattenFrom m (b + 1)).length →
      traverseFrom m n ⟨b, NodeRef.node b i⟩ =
        (m.bucketAt b).nodes.drop i ++ flattenFrom m (b + 1) := by
  intro n
  induction n using Nat.strong_induction_on with
  | _ n ih =>
  intro b i hb hi hn
  cases n with
  | zero => omega
  | succ n' =>
    rw [traverseFrom, if_neg (show ¬ (Cursor.mk b (NodeRef.node b i)).index = m.bucket_count
      from Nat.ne_of_lt hb)]
    have hp : m.refPair (NodeRef.node b i) = some ((m.bucketAt b).nodes[i]) := by
      rw [HashMap.refPair]
      exact List.getElem?_eq_getElem hi
    show (m.refPair (NodeRef.node b i)).toList ++ _ = _
    rw [hp]
    have hdropcons : (m.bucketAt b).nodes.drop i
        = (m.bucketAt b).nodes[i] :: (m.bucketAt b).nodes.drop (i + 1) :=
      List.drop_eq_getElem_cons hi
    by_cases hi1 : i + 1 < (m.bucketAt b).nodes.length
    · have hinc : Cursor.inc m ⟨b, NodeRef.node b i⟩ = ⟨b, NodeRef.node b (i + 1)⟩ := by
        simp only [Cursor.inc, HashMap.refNext]
        rw [if_pos hi1, if_neg (by simp)]
      rw [hinc, ih n' (Nat.lt_succ_self n') b (i + 1) hb hi1 (by omega), hdropcons]
      rfl
    · have hieq : i + 1 = (m.bucketAt b).nodes.length := by omega
      have hdrop1 : (m.bucketAt b).nodes.drop (i + 1) = [] :=
        List.drop_eq_nil_of_le (by omega)
      obtain ⟨hge, hle, hbetween, hne⟩ :=
        findNonempty_spec m (m.bucket_count - (b + 1)) (b + 1) (Nat.le_refl _) (by omega)
      by_cases hj : findNonempty m (b + 1) = m.bucket_count
      · have hinc : Cursor.inc m ⟨b, NodeRef.node b i⟩
            = ⟨findNonempty m (b + 1), NodeRef.sentinel b⟩ := by
          simp only [Cursor.inc, HashMap.refNext]
          rw [if_neg hi1, if_pos rfl, if_pos hj]
        rw [hinc, traverseFrom_terminal m n' _ hj]
        have hflat : flattenFrom m (b + 1) = [] := by
          rw [flattenFrom_skip m (m.bucket_count - (b + 1)) (b + 1) m.bucket_count
            (Nat.le_refl _) (by omega) (Nat.le_refl _)
            (fun x hx hx' => hbetween x hx (by omega))]
          exact flattenFrom_ge m _ (by omega)
        rw [hflat, hdropcons, hdrop1]
        rfl
      · have hjlt : findNonempty m (b + 1) < m.bucket_count := Nat.lt_of_le_of_ne hle hj
        have hinc : Cursor.inc m ⟨b, NodeRef.node b i⟩
            = ⟨findNonempty m (b + 1), NodeRef.node (findNonempty m (b + 1)) 0⟩ := by
          simp only [Cursor.inc, HashMap.refNext]
          rw [if_neg hi1, if_pos rfl, if_neg hj]
        have hpos : 0 < (m.bucketAt (findNonempty m (b + 1))).nodes.length :=
          List.length_pos.2 (hne hjlt)
        have hflat : flattenFrom m (b + 1)
            = (m.bucketAt (findNonempty m (b + 1))).nodes
              ++ flattenFrom m (findNonempty m (b + 1) + 1) := by
          rw [flattenFrom_skip m (findNonempty m (b + 1) - (b + 1)) (b + 1)
            (findNonempty m (b + 1)) (Nat.le_refl _) hge hle
            (fun x hx hx' => hbetween x hx hx')]
          exact flattenFrom_lt m _ hjlt
        have hfuel : n' = ((m.bucketAt (findNonempty m (b + 1))).nodes.length - 0)
            + (flattenFrom m (findNonempty m (b + 1) + 1)).length := by
          have hlen : (flattenFrom m (b + 1)).length
              = (m.bucketAt (findNonempty m (b + 1))).nodes.length
                + (flattenFrom m (findNonempty m (b + 1) + 1)).length := by
            rw [hflat, List.length_append]
          omega
        rw [hinc, ih n' (Nat.lt_succ_self n') (findNonempty m (b + 1)) 0 hjlt hpos hfuel]
        rw [List.drop_zero, hdropcons, hdrop1, hflat]
        rfl

theorem HashMap.traverse_eq_contents (m : HashMap K V) (hwf : m.WF) :
    m.traverse = m.contents := by
  obtain ⟨hge, hle, hbetween, hne⟩ :=
    findNonempty_spec m m.bucket_count 0 (by omega) (Nat.zero_le _)
  rw [HashMap.traverse, HashMap.contents, HashMap.begin]
  by_cases hj : findNonempty m 0 = m.bucket_count
  · rw [if_pos hj, mkIterator_null, traverseFrom_terminal m _ _ rfl]
    rw [flattenFrom_skip m m.bucket_count 0 m.bucket_count (by omega) (Nat.zero_le _)
      (Nat.le_refl _) (fun x hx hx' => hbetween x hx (by omega))]
    rw [flattenFrom_ge m _ (by omega)]
  · rw [if_neg hj, mkIterator_node]
    have hjlt : findNonempty m 0 < m.bucket_count := Nat.lt_of_le_of_ne hle hj
    have hpos : 0 < (m.bucketAt (findNonempty m 0)).nodes.length :=
      List.length_pos.2 (hne hjlt)
    have hflat : flattenFrom m 0
        = (m.bucketAt (findNonempty m 0)).nodes ++ flattenFrom m (findNonempty m 0 + 1) := by
      rw [flattenFrom_skip m (findNonempty m 0) 0 (findNonempty m 0) (Nat.le_refl _)
        (Nat.zero_le _) hle (fun x hx hx' => hbetween x hx hx')]
      exact flattenFrom_lt m _ hjlt
    have hw := traverse_walk m ((flattenFrom m 0).length) (findNonempty m 0) 0 hjlt hpos
      (by rw [hflat, List.length_append]; omega)
    rw [List.drop_zero] at hw
    rw [hw, hflat]

/-- Claim C6: on a quiescent well-formed map, a full traversal from
`begin()` by repeated increment yields exactly the logical contents in
canonical order — ascending bucket index, insertion order within a
bucket — each live key appearing exactly once, and the pairs observed are
exactly the pairs `lookup` reports. -/
theorem claim_C6_traversal (m : HashMap K V) (hwf : m.WF) :
    m.traverse = m.contents ∧
    ((m.contents.map Prod.fst).Nodup) ∧
    (∀ k v, (k, v) ∈ m.contents ↔ m.lookup k = some v) := by
  refine ⟨m.traverse_eq_contents hwf,
    flattenFrom_keys_nodup m hwf m.bucket_count 0 (by omega), ?_⟩
  intro k v
  rw [HashMap.contents, mem_flattenFrom m m.bucket_count 0 (k, v) (by omega)]
  constructor
  · rintro ⟨x, hx1, hx2, hx3⟩
    obtain ⟨i, hilt, hie⟩ := List.mem_iff_getElem.1 hx3
    have hi : (m.bucketAt x).nodes[i]? = some (k, v) := by
      rw [List.getElem?_eq_getElem hilt, hie]
    exact (HashMap.lookup_of_node hwf hi).2
  · intro h
    obtain ⟨i, hf, hget⟩ := Bucket.lookup_eq_some_iff.1 h
    exact ⟨m.bucketIdx k, Nat.zero_le _, m.bucketIdx_lt k hwf.count_pos,
      List.getElem?_mem hget⟩

/-- Witness for C6: the full traversal of the concrete map
`{1 ↦ 10, 2 ↦ 20, 4 ↦ 40}` equals its canonical contents, and membership
in the contents coincides with `lookup`. -/
theorem claim_C6_traversal_witness :
    mapB.traverse = mapB.contents ∧ ((2, 20) ∈ mapB.contents ↔ mapB.lookup 2 = some 20) := by
  have h := claim_C6_traversal mapB (by decide)
  exact ⟨h.1, h.2.2 2 20⟩

end ThreadSafe
